import Mathlib

/-!
Shallow embedding of `src/Collections/dicts.py` (class `Dictionary`, plus the
spec-described `DefaultDict`, which has no source under `src/`).

Python objects are modelled as follows: a key is a pair of an identity (used
for `==`) and an optional integer hash (`none` models a key whose `hash()`
raises `TypeError`); values are a type parameter `V`.  The mutable state of a
`Dictionary` instance is the structure `Dicts.Dict`.  Methods that mutate the
receiver are functions from the old state to the new state; methods that can
raise return `Except PyErr` (or the three-valued `WriteRes`, because
`__setitem__`'s grow-and-retry recursion need not terminate when two distinct
keys share a hash value, so it is given explicit fuel).  An error result
carries no state: no claim observes the state of a dictionary after a raised
exception, so the partially-mutated state Python would leave behind is not
recorded.
-/

set_option linter.unusedVariables false

namespace Dicts

/-- A Python object used as a key: `id` is its identity for `==`, and
`hash?` is `some h` when `hash(key)` returns `h`, `none` when hashing raises
`TypeError` (an unhashable key). -/
structure Key where
  id : Nat
  hash? : Option Int
deriving DecidableEq

/-- One occupied slot of `_store`: the tuple `(key, value, self._added)`
stored by `__setitem__`. -/
structure Entry (V : Type) where
  key : Key
  val : V
  seq : Nat
deriving DecidableEq

/-- The state of a `Dictionary` instance: fields `_len`, `_max_len`,
`_multiplier`, `_store` and `_added`.  (`_iterators` is omitted: no claim
mentions `__iter__`/`__next__`.) -/
structure Dict (V : Type) where
  len : Nat
  max_len : Nat
  multiplier : Nat
  store : List (Option (Entry V))
  added : Nat
deriving DecidableEq

/-- The Python exceptions the claims distinguish: `KeyError` (not found) and
`TypeError` (unhashable key). -/
inductive PyErr where
  | keyError
  | typeError
deriving DecidableEq

variable {V : Type}

/-- The slot index `hash(key) % self._max_len`: Python's `%` with a positive
divisor agrees with `Int.emod`. -/
def slotIdx (h : Int) (m : Nat) : Nat := (h % (m : Int)).toNat

/-- The state `Dictionary.__init__` builds before inserting any `kv_pairs`:
`_len = 0`, `_store = [None] * max_len`, `_added = 0`. -/
def emptyD (m mult : Nat) : Dict V :=
  { len := 0, max_len := m, multiplier := mult,
    store := List.replicate m none, added := 0 }

/-- `self._store[i]` (the claims only evaluate it at `i < len(self._store)`,
where it agrees with Python's indexing). -/
def entryAt (d : Dict V) (i : Nat) : Option (Entry V) := d.store.getD i none

/-- The occupied slots of `_store`, in slot order. -/
def entriesOf (d : Dict V) : List (Entry V) := d.store.filterMap id

/-- Comparison by insertion sequence, the key function
`lambda item: item[2]` used by `Dictionary.items`. -/
def seqLE (a b : Entry V) : Prop := a.seq ≤ b.seq

instance : DecidableRel (seqLE (V := V)) := fun a b => Nat.decLe a.seq b.seq

instance : IsTotal (Entry V) seqLE := ⟨fun a b => Nat.le_total a.seq b.seq⟩

instance : IsTrans (Entry V) seqLE := ⟨fun _ _ _ => Nat.le_trans⟩

/-- Strict comparison by insertion sequence (used to state uniqueness of the
sorted form; the source's `sorted` is the `seqLE` insertion sort). -/
def seqLT (a b : Entry V) : Prop := a.seq < b.seq

instance : IsAntisymm (Entry V) seqLT :=
  ⟨fun a b h h' => absurd (Nat.lt_trans h h') (Nat.lt_irrefl _)⟩

instance : IsTrans (Entry V) seqLT := ⟨fun _ _ _ => Nat.lt_trans⟩

/-- Python's `sorted(..., key=lambda item: item[2])`: a stable sort by
insertion sequence. -/
def sortSeq (l : List (Entry V)) : List (Entry V) := l.insertionSort seqLE

/-- The entries of the dictionary in insertion-sequence order
(`Dictionary.items` before projecting away the sequence numbers). -/
def itemsE (d : Dict V) : List (Entry V) := sortSeq (entriesOf d)

/-- The pair a stored entry contributes to `Dictionary.items`. -/
def entryPair (e : Entry V) : Key × V := (e.key, e.val)

/-- `Dictionary.items`: the occupied entries sorted by insertion sequence,
projected to `(key, value)` pairs. -/
def items (d : Dict V) : List (Key × V) := (itemsE d).map entryPair

/-- `Dictionary.keys`. -/
def keysD (d : Dict V) : List Key := (items d).map Prod.fst

/-- Tag a list of key/value pairs with consecutive sequence numbers starting
at `a` — the entry list the constructor builds when re-inserting pairs in
order. -/
def seqTag : List (Key × V) → Nat → List (Entry V)
  | [], _ => []
  | (k, v) :: rest, a => ⟨k, v, a⟩ :: seqTag rest (a + 1)

/-- `Dictionary.__getitem__`: unhashable keys fall through the `except
TypeError` branch to the same `raise KeyError` as a missing key. -/
def getitem (d : Dict V) (k : Key) : Except PyErr V :=
  match k.hash? with
  | none => .error .keyError
  | some h =>
    match entryAt d (slotIdx h d.max_len) with
    | some e => if e.key = k then .ok e.val else .error .keyError
    | none => .error .keyError

/-- `Dictionary.__delitem__`: clear the slot and decrement `_len`; an
unhashable key raises `KeyError`, like a missing key. -/
def delitem (d : Dict V) (k : Key) : Except PyErr (Dict V) :=
  match k.hash? with
  | none => .error .keyError
  | some h =>
    match entryAt d (slotIdx h d.max_len) with
    | some e =>
      if e.key = k then
        .ok { d with store := d.store.set (slotIdx h d.max_len) none,
                     len := d.len - 1 }
      else .error .keyError
    | none => .error .keyError

/-- `Dictionary.__contains__` as used by Python's `in` (which coerces the
returned `store[kh] and store[kh][0] == key` to a boolean): `False` on an
unhashable key. -/
def contains (d : Dict V) (k : Key) : Bool :=
  match k.hash? with
  | none => false
  | some h =>
    match entryAt d (slotIdx h d.max_len) with
    | some e => decide (e.key = k)
    | none => false

/-- `Dictionary.get`: `self[key]`, substituting `default` on `KeyError`. -/
def getOr (d : Dict V) (k : Key) (default : V) : V :=
  match getitem d k with
  | .ok v => v
  | .error _ => default

/-- `Dictionary.__eq__`: `self.items() == other.items()`. -/
def eqDict [DecidableEq V] (d1 d2 : Dict V) : Bool :=
  decide (items d1 = items d2)

/-- Result of a write (`__setitem__`) or of constructing a dictionary from
pairs: `__setitem__` re-raises `TypeError` for an unhashable key, and its
grow-and-retry recursion is bounded by fuel (`outOfFuel` models
non-termination, which Python exhibits when two distinct keys collide at
every capacity). -/
inductive WriteRes (V : Type) where
  | ok (d : Dict V)
  | typeError
  | outOfFuel
deriving DecidableEq

/-- The assignment `self._len, self._max_len, self._store = new_dict._len,
new_dict._max_len, new_dict._store` performed when `__setitem__` grows the
dictionary (`_multiplier` and `_added` keep their old values). -/
def adopt (d nd : Dict V) : Dict V :=
  { d with len := nd.len, max_len := nd.max_len, store := nd.store }

/-- The slot assignment performed by `__setitem__` once the slot is known to
be empty or to hold the same key: `if not self._store[key_hash]: self._len +=
1`, then `self._store[key_hash] = (key, value, self._added)` and
`self._added += 1`. -/
def place (d1 : Dict V) (k : Key) (v : V) (hv : Int) : Dict V :=
  { d1 with
    len := if (entryAt d1 (slotIdx hv d1.max_len)).isNone then d1.len + 1
           else d1.len,
    store := d1.store.set (slotIdx hv d1.max_len) (some ⟨k, v, d1.added⟩),
    added := d1.added + 1 }

/-- The `__init__` insertion loop `for key, value in kv_pairs: self[key] =
value`, parameterized by the write operation `ins` (the enclosing
`__setitem__` at the current recursion depth). -/
def insertAllW (ins : Dict V → Key → V → WriteRes V) :
    Dict V → List (Key × V) → WriteRes V
  | d, [] => .ok d
  | d, (k, v) :: rest =>
    match ins d k v with
    | .ok d' => insertAllW ins d' rest
    | r => r

/-- The growth step of `__setitem__`: build `self.__class__(self.items(),
max_len=self._max_len * self._multiplier)` (the constructor's `multiplier`
argument is left at its default `2`) and take over its `_len`, `_max_len`
and `_store`. -/
def growW (ins : Dict V → Key → V → WriteRes V) (d : Dict V) : WriteRes V :=
  match insertAllW ins (emptyD (d.max_len * d.multiplier) 2) (items d) with
  | .ok nd => .ok (adopt d nd)
  | r => r

/-- The placement half of `__setitem__`, applied to the state after the
pre-emptive growth check: hash the key (re-raising `TypeError`), then fill
an empty or same-key slot, or grow and retry on a collision. -/
def setitemAuxW (ins : Dict V → Key → V → WriteRes V) (r : WriteRes V)
    (k : Key) (v : V) : WriteRes V :=
  match r with
  | .ok d1 =>
    match k.hash? with
    | none => .typeError
    | some hv =>
      match entryAt d1 (slotIdx hv d1.max_len) with
      | none => .ok (place d1 k v hv)
      | some e =>
        if e.key = k then .ok (place d1 k v hv)
        else
          match growW ins d1 with
          | .ok d2 => ins d2 k v
          | r2 => r2
  | r1 => r1

/-- `Dictionary.__setitem__`, with fuel bounding the grow-and-retry
recursion (each level of fuel funds one layer of grow-and-retry): the
pre-emptive growth when `self._len >= self._max_len`, followed by the
placement logic `setitemAuxW`. -/
def setitemF : Nat → Dict V → Key → V → WriteRes V
  | 0 => fun _ _ _ => .outOfFuel
  | fuel + 1 => fun d k v =>
    setitemAuxW (setitemF fuel)
      (if d.max_len ≤ d.len then growW (setitemF fuel) d else .ok d) k v

/-- The insertion loop at a given fuel. -/
def insertAllF (fuel : Nat) : Dict V → List (Key × V) → WriteRes V :=
  insertAllW (setitemF fuel)

/-- The growth step at a given fuel. -/
def growD (fuel : Nat) : Dict V → WriteRes V := growW (setitemF fuel)

/-- The placement step at a given fuel. -/
def setitemAux (fuel : Nat) : WriteRes V → Key → V → WriteRes V :=
  setitemAuxW (setitemF fuel)

theorem setitemF_zero (d : Dict V) (k : Key) (v : V) :
    setitemF 0 d k v = .outOfFuel := rfl

theorem setitemF_succ (fuel : Nat) (d : Dict V) (k : Key) (v : V) :
    setitemF (fuel + 1) d k v =
      setitemAux fuel (if d.max_len ≤ d.len then growD fuel d else .ok d)
        k v := rfl

theorem insertAllF_nil (fuel : Nat) (d : Dict V) :
    insertAllF fuel d [] = .ok d := rfl

theorem insertAllF_cons (fuel : Nat) (d : Dict V) (k : Key) (v : V)
    (rest : List (Key × V)) :
    insertAllF fuel d ((k, v) :: rest) =
      match setitemF fuel d k v with
      | .ok d' => insertAllF fuel d' rest
      | r => r := rfl

theorem growD_eq (fuel : Nat) (d : Dict V) :
    growD fuel d =
      match insertAllF fuel (emptyD (d.max_len * d.multiplier) 2) (items d) with
      | .ok nd => .ok (adopt d nd)
      | r => r := rfl

theorem setitemAux_ok_eq (fuel : Nat) (d1 : Dict V) (k : Key) (v : V) :
    setitemAux fuel (.ok d1) k v =
      match k.hash? with
      | none => .typeError
      | some hv =>
        match entryAt d1 (slotIdx hv d1.max_len) with
        | none => .ok (place d1 k v hv)
        | some e =>
          if e.key = k then .ok (place d1 k v hv)
          else
            match growD fuel d1 with
            | .ok d2 => setitemF fuel d2 k v
            | r2 => r2 := rfl

/-- `Dictionary(kv_pairs, max_len=m, multiplier=mult)`: build the empty state
and insert the pairs in order. -/
def initD (fuel : Nat) (pairs : List (Key × V)) (m mult : Nat) : WriteRes V :=
  insertAllF fuel (emptyD m mult) pairs

/-- `Dictionary.pop(key, default)`: `default? = none` models calling `pop`
without a default (the `_SENTINEL` case), `some v` a caller-supplied default
`v` — including any "falsy" value, since the code compares against the
sentinel by identity rather than truthiness. -/
def popD (d : Dict V) (k : Key) (default? : Option V) :
    Except PyErr (V × Dict V) :=
  if contains d k then
    match getitem d k with
    | .ok rc =>
      match delitem d k with
      | .ok d' => .ok (rc, d')
      | .error e => .error e
    | .error e => .error e
  else
    match default? with
    | some df => .ok (df, d)
    | none => .error .keyError

/-- Extract the dictionary from a successful write result (used only to state
closed, computable witnesses and counterexamples). -/
def okD : WriteRes V → Dict V
  | .ok d => d
  | _ => emptyD 0 0

/-- Whether a write result is a success. -/
def isOk : WriteRes V → Bool
  | .ok _ => true
  | _ => false

/-- The representation invariant of a `Dictionary` state, maintained by every
construction path of the source: the store has `_max_len` slots, `_max_len`
and `_multiplier` are positive (they are by default and only ever grow),
`_len` counts the occupied slots, every stored sequence number is strictly
below `_added`, sequence numbers and keys are pairwise distinct, and every
occupied slot sits at the hash-derived index of its key. -/
def Wf (d : Dict V) : Prop :=
  d.store.length = d.max_len ∧
  0 < d.max_len ∧
  0 < d.multiplier ∧
  d.len = (entriesOf d).length ∧
  (∀ e ∈ entriesOf d, e.seq < d.added) ∧
  ((entriesOf d).map Entry.seq).Nodup ∧
  ((entriesOf d).map Entry.key).Nodup ∧
  (∀ i < d.store.length, ∀ e ∈ (d.store.getD i none).toList,
    ∃ hv ∈ e.key.hash?.toList, slotIdx hv d.max_len = i)

/-- The states produced by running the constructor from scratch: the entries
hold exactly the sequence numbers `0..n-1` in item order, and `_added = n`. -/
def Canon (d : Dict V) : Prop :=
  itemsE d = seqTag (items d) 0 ∧ d.added = (itemsE d).length

instance (d : Dict V) : Decidable (Wf d) := by
  unfold Wf
  exact inferInstance

instance [DecidableEq V] (d : Dict V) : Decidable (Canon d) := by
  unfold Canon
  exact inferInstance

theorem slotIdx_lt (h : Int) {m : Nat} (hm : 0 < m) : slotIdx h m < m := by
  have hm' : (m : Int) ≠ 0 := by exact_mod_cast hm.ne'
  have h1 : 0 ≤ h % (m : Int) := Int.emod_nonneg h hm'
  have h2 : h % (m : Int) < (m : Int) := Int.emod_lt_of_pos h (by exact_mod_cast hm)
  unfold slotIdx
  omega

theorem getD_set_self {α : Type} (l : List α) (i : Nat) (b : α)
    (hi : i < l.length) : (l.set i b).getD i b = b := by
  rw [List.getD_eq_getElem?_getD, List.getElem?_set_self (by simpa using hi)]
  rfl

theorem getD_set_self' {α : Type} (l : List (Option α)) (i : Nat)
    (b : Option α) (hi : i < l.length) : (l.set i b).getD i none = b := by
  rw [List.getD_eq_getElem?_getD, List.getElem?_set_self (by simpa using hi)]
  rfl

theorem getD_set_other {α : Type} (l : List (Option α)) {i j : Nat}
    (b : Option α) (hij : i ≠ j) :
    (l.set i b).getD j none = l.getD j none := by
  rw [List.getD_eq_getElem?_getD, List.getElem?_set_ne hij,
    ← List.getD_eq_getElem?_getD]

theorem filterMap_cons_toList {α : Type} (x : Option α) (xs : List (Option α)) :
    (x :: xs).filterMap id = x.toList ++ xs.filterMap id := by
  cases x <;> simp

theorem filterMap_set_perm {α : Type} :
    ∀ (l : List (Option α)) (i : Nat) (b : Option α), i < l.length →
    ∃ rest, (l.filterMap id).Perm ((l.getD i none).toList ++ rest) ∧
      ((l.set i b).filterMap id).Perm (b.toList ++ rest)
  | [], i, b, hi => absurd hi (by simp)
  | x :: xs, 0, b, _ => by
    refine ⟨xs.filterMap id, ?_, ?_⟩
    · rw [filterMap_cons_toList, List.getD_cons_zero]
    · rw [List.set_cons_zero, filterMap_cons_toList]
  | x :: xs, j + 1, b, hi => by
    obtain ⟨rest', h1, h2⟩ :=
      filterMap_set_perm xs j b (by simpa using Nat.lt_of_succ_lt_succ hi)
    cases x with
    | none =>
      refine ⟨rest', ?_, ?_⟩
      · simpa [filterMap_cons_toList, List.getD_cons_succ] using h1
      · simpa [List.set_cons_succ, filterMap_cons_toList] using h2
    | some a =>
      refine ⟨a :: rest', ?_, ?_⟩
      · rw [filterMap_cons_toList, List.getD_cons_succ]
        exact (h1.cons a).trans List.perm_middle.symm
      · rw [List.set_cons_succ, filterMap_cons_toList]
        exact (h2.cons a).trans List.perm_middle.symm

theorem sortSeq_perm (l : List (Entry V)) : (sortSeq l).Perm l :=
  List.perm_insertionSort _ _

theorem sortSeq_sorted (l : List (Entry V)) : List.Sorted seqLE (sortSeq l) :=
  List.sorted_insertionSort _ _

theorem sorted_lt_of_le {l : List (Entry V)} (hs : List.Sorted seqLE l)
    (hnd : (l.map Entry.seq).Nodup) : List.Pairwise seqLT l := by
  have hne : List.Pairwise (fun a b : Entry V => a.seq ≠ b.seq) l :=
    List.pairwise_map.mp hnd
  exact (hs.and hne).imp fun h => Nat.lt_of_le_of_ne h.1 h.2

theorem sortSeq_eq_of_perm_sorted {l l' : List (Entry V)}
    (hnd : (l.map Entry.seq).Nodup) (hp : l.Perm l')
    (hs : List.Pairwise seqLT l') : sortSeq l = l' := by
  refine List.eq_of_perm_of_sorted ((sortSeq_perm l).trans hp) ?_ hs
  refine sorted_lt_of_le (sortSeq_sorted l) ?_
  exact (((sortSeq_perm l).map Entry.seq).nodup_iff).mpr hnd

theorem sortSeq_congr {l l' : List (Entry V)}
    (hnd : (l.map Entry.seq).Nodup) (hp : l.Perm l') :
    sortSeq l = sortSeq l' := by
  refine sortSeq_eq_of_perm_sorted hnd (hp.trans (sortSeq_perm l').symm) ?_
  refine sorted_lt_of_le (sortSeq_sorted l') ?_
  exact (((sortSeq_perm l').map Entry.seq).nodup_iff).mpr
    (((hp.map Entry.seq).nodup_iff).mp hnd)

theorem sortSeq_append_max {l : List (Entry V)} {e : Entry V}
    (hnd : (l.map Entry.seq).Nodup) (hmax : ∀ x ∈ l, x.seq < e.seq) :
    sortSeq (e :: l) = sortSeq l ++ [e] := by
  have hnd' : ((e :: l).map Entry.seq).Nodup := by
    simp only [List.map_cons, List.nodup_cons]
    exact ⟨fun hmem => by
      obtain ⟨x, hx, hxe⟩ := List.mem_map.mp hmem
      exact absurd hxe (Nat.ne_of_lt (hmax x hx)), hnd⟩
  refine sortSeq_eq_of_perm_sorted hnd' ?_ ?_
  · exact ((sortSeq_perm l).symm.cons e).trans (List.perm_append_singleton e _).symm
  · rw [List.pairwise_append]
    refine ⟨?_, List.pairwise_singleton _ _, ?_⟩
    · refine sorted_lt_of_le (sortSeq_sorted l) ?_
      exact (((sortSeq_perm l).map Entry.seq).nodup_iff).mpr hnd
    · intro a ha b hb
      rw [List.mem_singleton] at hb
      subst hb
      exact hmax a ((sortSeq_perm l).mem_iff.mp ha)

theorem sortSeq_filter (p : Entry V → Bool) {l : List (Entry V)}
    (hnd : (l.map Entry.seq).Nodup) :
    sortSeq (l.filter p) = (sortSeq l).filter p := by
  have hsub : (l.filter p).Sublist l := List.filter_sublist l
  refine sortSeq_eq_of_perm_sorted ((hsub.map Entry.seq).nodup hnd)
    ((sortSeq_perm l).symm.filter p) ?_
  refine List.Pairwise.sublist (List.filter_sublist _) ?_
  refine sorted_lt_of_le (sortSeq_sorted l) ?_
  exact (((sortSeq_perm l).map Entry.seq).nodup_iff).mpr hnd

theorem seqTag_length (P : List (Key × V)) : ∀ a, (seqTag P a).length = P.length := by
  induction P with
  | nil => intro a; rfl
  | cons p rest ih => intro a; obtain ⟨k, v⟩ := p; simp [seqTag, ih]

theorem seqTag_map_pair (P : List (Key × V)) : ∀ a, (seqTag P a).map entryPair = P := by
  induction P with
  | nil => intro a; rfl
  | cons p rest ih => intro a; obtain ⟨k, v⟩ := p; simp [seqTag, entryPair, ih]

theorem seqTag_append (A B : List (Key × V)) :
    ∀ a, seqTag (A ++ B) a = seqTag A a ++ seqTag B (a + A.length) := by
  induction A with
  | nil => intro a; simp [seqTag]
  | cons p rest ih =>
    intro a
    obtain ⟨k, v⟩ := p
    have h1 : ((k, v) :: rest) ++ B = (k, v) :: (rest ++ B) := rfl
    rw [h1]
    show (⟨k, v, a⟩ : Entry V) :: seqTag (rest ++ B) (a + 1) = _
    rw [ih (a + 1), List.length_cons]
    have h2 : a + 1 + rest.length = a + (rest.length + 1) := by omega
    rw [h2]
    rfl

theorem seqTag_of_seq_range' : ∀ (l : List (Entry V)) (a : Nat),
    l.map Entry.seq = List.range' a l.length → seqTag (l.map entryPair) a = l
  | [], _, _ => rfl
  | e :: es, a, h => by
    simp only [List.map_cons, List.length_cons, List.range'_succ,
      List.cons.injEq] at h
    obtain ⟨hseq, hrest⟩ := h
    simp only [List.map_cons, entryPair, seqTag, List.cons.injEq]
    exact ⟨by cases e with | mk key val seq => simpa using hseq.symm,
      seqTag_of_seq_range' es (a + 1) hrest⟩

theorem pairwise_lt_get_lower :
    ∀ (s : List Nat), s.Pairwise (· < ·) →
    ∀ j, (∀ x ∈ s, j ≤ x) → ∀ i (h : i < s.length), j + i ≤ s.get ⟨i, h⟩
  | [], _, _, _, i, h => absurd h (by simp)
  | x :: xs, hp, j, hj, 0, h => by simpa using hj x (by simp)
  | x :: xs, hp, j, hj, i + 1, h => by
    rw [List.pairwise_cons] at hp
    have ih := pairwise_lt_get_lower xs hp.2 (j + 1)
      (fun y hy => Nat.lt_of_le_of_lt (hj x (by simp)) (hp.1 y hy))
      i (by simpa using Nat.lt_of_succ_lt_succ h)
    simpa [Nat.add_assoc, Nat.add_comm 1 i] using ih

theorem pairwise_lt_get_upper :
    ∀ (s : List Nat), s.Pairwise (· < ·) →
    ∀ (bound : Nat), (∀ x ∈ s, x < bound) →
    ∀ i (h : i < s.length), s.get ⟨i, h⟩ + (s.length - i) ≤ bound
  | [], _, _, _, i, h => absurd h (by simp)
  | x :: xs, hp, bound, hb, i + 1, h => by
    rw [List.pairwise_cons] at hp
    have ih := pairwise_lt_get_upper xs hp.2 bound (fun y hy => hb y (by simp [hy]))
      i (by simpa using Nat.lt_of_succ_lt_succ h)
    simpa using ih
  | x :: xs, hp, bound, hb, 0, h => by
    rw [List.pairwise_cons] at hp
    cases xs with
    | nil => simpa using hb x (by simp)
    | cons y ys =>
      have ih := pairwise_lt_get_upper (y :: ys) hp.2 bound
        (fun z hz => hb z (by simp [hz])) 0 (by simp)
      have hxy : x < y := hp.1 y (by simp)
      simp only [List.get] at ih ⊢
      simp only [List.length_cons] at ih ⊢
      omega

theorem pairwise_lt_bounded_eq_range (s : List Nat) (hp : s.Pairwise (· < ·))
    (hb : ∀ x ∈ s, x < s.length) : s = List.range s.length := by
  refine List.ext_get (by simp) ?_
  intro n h₁ h₂
  have hlow := pairwise_lt_get_lower s hp 0 (fun _ _ => Nat.zero_le _) n h₁
  have hup := pairwise_lt_get_upper s hp s.length hb n h₁
  have : s.get ⟨n, h₁⟩ = n := by omega
  rw [this]
  exact (List.get_range n h₂).symm

theorem nodup_lt_length_le {s : List Nat} (hnd : s.Nodup) (a : Nat)
    (hb : ∀ x ∈ s, x < a) : s.length ≤ a := by
  have hsub : s.toFinset ⊆ Finset.range a := by
    intro x hx
    rw [Finset.mem_range]
    exact hb x (List.mem_toFinset.mp hx)
  have := Finset.card_le_card hsub
  rwa [List.toFinset_card_of_nodup hnd, Finset.card_range] at this

theorem eq_seqTag_of_bounded {l : List (Entry V)} (hs : l.Pairwise seqLT)
    (hb : ∀ e ∈ l, e.seq < l.length) : l = seqTag (l.map entryPair) 0 := by
  refine (seqTag_of_seq_range' l 0 ?_).symm
  have hp : (l.map Entry.seq).Pairwise (· < ·) := by
    rw [List.pairwise_map]; exact hs
  have hb' : ∀ x ∈ l.map Entry.seq, x < (l.map Entry.seq).length := by
    intro x hx
    obtain ⟨e, he, rfl⟩ := List.mem_map.mp hx
    simpa using hb e he
  have := pairwise_lt_bounded_eq_range _ hp hb'
  rw [List.length_map] at this
  rwa [List.range_eq_range'] at this

theorem wf_storeLen {d : Dict V} (h : Wf d) : d.store.length = d.max_len := h.1

theorem wf_maxPos {d : Dict V} (h : Wf d) : 0 < d.max_len := h.2.1

theorem wf_multPos {d : Dict V} (h : Wf d) : 0 < d.multiplier := h.2.2.1

theorem wf_lenEq {d : Dict V} (h : Wf d) : d.len = (entriesOf d).length :=
  h.2.2.2.1

theorem wf_seqLt {d : Dict V} (h : Wf d) : ∀ e ∈ entriesOf d, e.seq < d.added :=
  h.2.2.2.2.1

theorem wf_seqNodup {d : Dict V} (h : Wf d) :
    ((entriesOf d).map Entry.seq).Nodup := h.2.2.2.2.2.1

theorem wf_keyNodup {d : Dict V} (h : Wf d) :
    ((entriesOf d).map Entry.key).Nodup := h.2.2.2.2.2.2.1

theorem wf_placed {d : Dict V} (h : Wf d) :
    ∀ i < d.store.length, ∀ e ∈ (d.store.getD i none).toList,
      ∃ hv ∈ e.key.hash?.toList, slotIdx hv d.max_len = i :=
  h.2.2.2.2.2.2.2

theorem itemsE_perm_entriesOf (d : Dict V) : (itemsE d).Perm (entriesOf d) :=
  sortSeq_perm _

theorem itemsE_length (d : Dict V) : (itemsE d).length = (entriesOf d).length :=
  (itemsE_perm_entriesOf d).length_eq

theorem items_length (d : Dict V) : (items d).length = (entriesOf d).length := by
  rw [items, List.length_map, itemsE_length]

theorem itemsE_seqNodup {d : Dict V} (h : Wf d) :
    ((itemsE d).map Entry.seq).Nodup :=
  (((itemsE_perm_entriesOf d).map Entry.seq).nodup_iff).mpr (wf_seqNodup h)

theorem itemsE_sorted_lt {d : Dict V} (h : Wf d) :
    (itemsE d).Pairwise seqLT :=
  sorted_lt_of_le (sortSeq_sorted _) (itemsE_seqNodup h)

theorem itemsE_seq_lt_added {d : Dict V} (h : Wf d) :
    ∀ e ∈ itemsE d, e.seq < d.added := fun e he =>
  wf_seqLt h e ((itemsE_perm_entriesOf d).mem_iff.mp he)

theorem items_fst_nodup {d : Dict V} (h : Wf d) :
    ((items d).map Prod.fst).Nodup := by
  have : (items d).map Prod.fst = (itemsE d).map Entry.key := by
    rw [items, List.map_map]; rfl
  rw [this]
  exact (((itemsE_perm_entriesOf d).map Entry.key).nodup_iff).mpr (wf_keyNodup h)

theorem mem_entries_slot {d : Dict V} {e : Entry V} (he : e ∈ entriesOf d) :
    ∃ i, i < d.store.length ∧ d.store.getD i none = some e := by
  obtain ⟨o, ho, hoe⟩ := List.mem_filterMap.mp he
  subst hoe
  obtain ⟨n, hn⟩ := List.mem_iff_get?.mp ho
  have hlen : n < d.store.length := by
    by_contra hge
    rw [List.get?_eq_none.mpr (Nat.le_of_not_lt hge)] at hn
    exact Option.noConfusion hn
  exact ⟨n, hlen, by rw [List.getD_eq_getElem?_getD, ← List.get?_eq_getElem?, hn]; rfl⟩

theorem placed_of_mem {d : Dict V} (hwf : Wf d) {e : Entry V}
    (he : e ∈ entriesOf d) :
    ∃ hv, e.key.hash? = some hv ∧ entryAt d (slotIdx hv d.max_len) = some e := by
  obtain ⟨i, hi, hgd⟩ := mem_entries_slot he
  have := wf_placed hwf i hi e (by rw [hgd]; simp)
  obtain ⟨hv, hmem, hslot⟩ := this
  refine ⟨hv, ?_, ?_⟩
  · simpa [Option.mem_toList] using hmem
  · rw [entryAt, hslot, hgd]

theorem mem_entries_of_slot {d : Dict V} (hwf : Wf d) {i : Nat} {e : Entry V}
    (hi : i < d.store.length) (hgd : d.store.getD i none = some e) :
    e ∈ entriesOf d := by
  refine List.mem_filterMap.mpr ⟨some e, ?_, rfl⟩
  rw [List.getD_eq_getElem?_getD, List.getElem?_eq_getElem hi] at hgd
  have : d.store[i] = some e := by simpa using hgd
  rw [← this]
  exact List.getElem_mem _

theorem mem_items_of_mem_itemsE {d : Dict V} {e : Entry V}
    (he : e ∈ itemsE d) : (e.key, e.val) ∈ items d :=
  List.mem_map.mpr ⟨e, he, rfl⟩

theorem getitem_of_mem_items {d : Dict V} (hwf : Wf d) {k : Key} {v : V}
    (h : (k, v) ∈ items d) : getitem d k = .ok v := by
  obtain ⟨e, he, hpair⟩ := List.mem_map.mp h
  have hk : e.key = k := congrArg Prod.fst hpair
  have hval : e.val = v := congrArg Prod.snd hpair
  have he' : e ∈ entriesOf d := (itemsE_perm_entriesOf d).mem_iff.mp he
  obtain ⟨hv, hhash, hslot⟩ := placed_of_mem hwf he'
  rw [← hk, ← hval]
  simp [getitem, hhash, hslot]

theorem contains_iff_mem_items {d : Dict V} (hwf : Wf d) (k : Key) :
    contains d k = true ↔ ∃ v, (k, v) ∈ items d := by
  constructor
  · intro hc
    rw [contains] at hc
    cases hhash : k.hash? with
    | none => simp [hhash] at hc
    | some hv =>
      simp only [hhash] at hc
      cases hslot : entryAt d (slotIdx hv d.max_len) with
      | none => simp [hslot] at hc
      | some e =>
        simp only [hslot] at hc
        have hk : e.key = k := of_decide_eq_true hc
        have hi : slotIdx hv d.max_len < d.store.length := by
          rw [wf_storeLen hwf]; exact slotIdx_lt hv (wf_maxPos hwf)
        have he : e ∈ entriesOf d := mem_entries_of_slot hwf hi hslot
        refine ⟨e.val, ?_⟩
        rw [← hk]
        exact mem_items_of_mem_itemsE ((itemsE_perm_entriesOf d).mem_iff.mpr he)
  · rintro ⟨v, hmem⟩
    obtain ⟨e, he, hpair⟩ := List.mem_map.mp hmem
    have hk : e.key = k := congrArg Prod.fst hpair
    have he' : e ∈ entriesOf d := (itemsE_perm_entriesOf d).mem_iff.mp he
    obtain ⟨hv, hhash, hslot⟩ := placed_of_mem hwf he'
    rw [← hk]
    simp [contains, hhash, hslot]

theorem getitem_err_of_not_contains {d : Dict V} {k : Key}
    (hc : contains d k = false) : getitem d k = .error .keyError := by
  rw [contains] at hc
  cases hhash : k.hash? with
  | none => simp only [getitem, hhash]
  | some hv =>
    simp only [hhash] at hc
    cases hslot : entryAt d (slotIdx hv d.max_len) with
    | none => simp only [getitem, hhash, hslot]
    | some e =>
      simp only [hslot] at hc
      simp only [getitem, hhash, hslot, if_neg (of_decide_eq_false hc)]

theorem not_mem_items_of_not_contains {d : Dict V} (hwf : Wf d) {k : Key}
    (hc : contains d k = false) : ∀ v, (k, v) ∉ items d := by
  intro v hmem
  have := (contains_iff_mem_items hwf k).mpr ⟨v, hmem⟩
  rw [hc] at this
  exact Bool.noConfusion this

theorem entries_length_le_added {d : Dict V} (hwf : Wf d) :
    (entriesOf d).length ≤ d.added := by
  have := nodup_lt_length_le (wf_seqNodup hwf) d.added ?_
  · simpa using this
  · intro x hx
    obtain ⟨e, he, rfl⟩ := List.mem_map.mp hx
    exact wf_seqLt hwf e he

theorem emptyD_wf {m mult : Nat} (hm : 0 < m) (hmult : 0 < mult) :
    Wf (emptyD m mult : Dict V) := by
  refine ⟨by simp [emptyD], hm, hmult, ?_, ?_, ?_, ?_, ?_⟩ <;>
    simp [emptyD, entriesOf, List.filterMap_replicate]

theorem emptyD_entries (m mult : Nat) :
    entriesOf (emptyD m mult : Dict V) = [] := by
  simp [emptyD, entriesOf, List.filterMap_replicate]

theorem emptyD_items (m mult : Nat) : items (emptyD m mult : Dict V) = [] := by
  rw [items, itemsE, emptyD_entries]; rfl

theorem emptyD_canon (m mult : Nat) : Canon (emptyD m mult : Dict V) := by
  constructor
  · rw [itemsE, emptyD_entries, emptyD_items]; rfl
  · rw [itemsE, emptyD_entries]; rfl

theorem entries_key_ne_of_slot_empty {d1 : Dict V} (hwf : Wf d1) {k : Key}
    {hv : Int} (hk : k.hash? = some hv)
    (hempty : entryAt d1 (slotIdx hv d1.max_len) = none) :
    ∀ e ∈ entriesOf d1, e.key ≠ k := by
  intro e he hek
  obtain ⟨hv', hhash, hslot⟩ := placed_of_mem hwf he
  rw [hek, hk] at hhash
  obtain rfl : hv = hv' := Option.some.inj hhash
  rw [hempty] at hslot
  exact Option.noConfusion hslot

theorem entries_eq_of_slot_some {d1 : Dict V} (hwf : Wf d1) {k : Key}
    {hv : Int} {e0 : Entry V} (hk : k.hash? = some hv)
    (hsome : entryAt d1 (slotIdx hv d1.max_len) = some e0) :
    ∀ e ∈ entriesOf d1, e.key = k → e = e0 := by
  intro e he hek
  obtain ⟨hv', hhash, hslot⟩ := placed_of_mem hwf he
  rw [hek, hk] at hhash
  obtain rfl : hv = hv' := Option.some.inj hhash
  rw [hsome] at hslot
  exact (Option.some.inj hslot).symm

theorem place_wf_aux {d1 : Dict V} (hwf : Wf d1) {k : Key} {hv : Int} {v : V}
    (hk : k.hash? = some hv) {rest : List (Entry V)}
    (hperm : (entriesOf (place d1 k v hv)).Perm (⟨k, v, d1.added⟩ :: rest))
    (hsub : ∀ x ∈ rest, x ∈ entriesOf d1)
    (hkeyrest : (rest.map Entry.key).Nodup)
    (hknotin : k ∉ rest.map Entry.key)
    (hseqrest : (rest.map Entry.seq).Nodup)
    (hlen : (place d1 k v hv).len = rest.length + 1) :
    Wf (place d1 k v hv) := by
  have hs_lt : slotIdx hv d1.max_len < d1.store.length := by
    rw [wf_storeLen hwf]; exact slotIdx_lt hv (wf_maxPos hwf)
  refine ⟨?_, ?_, ?_, ?_, ?_, ?_, ?_, ?_⟩
  · show (d1.store.set _ _).length = d1.max_len
    rw [List.length_set]; exact wf_storeLen hwf
  · show 0 < d1.max_len
    exact wf_maxPos hwf
  · show 0 < d1.multiplier
    exact wf_multPos hwf
  · rw [hlen, hperm.length_eq]; simp
  · intro e he
    rcases List.mem_cons.mp (hperm.mem_iff.mp he) with rfl | hr
    · exact Nat.lt_succ_self _
    · exact Nat.lt_succ_of_lt (wf_seqLt hwf _ (hsub _ hr))
  · refine ((hperm.map Entry.seq).nodup_iff).mpr ?_
    simp only [List.map_cons]
    refine List.nodup_cons.mpr ⟨?_, hseqrest⟩
    intro hmem
    obtain ⟨e, he, heq⟩ := List.mem_map.mp hmem
    exact absurd heq (Nat.ne_of_lt (wf_seqLt hwf e (hsub e he)))
  · refine ((hperm.map Entry.key).nodup_iff).mpr ?_
    simp only [List.map_cons]
    exact List.nodup_cons.mpr ⟨hknotin, hkeyrest⟩
  · intro i hi e he
    have hi' : i < d1.store.length := by
      have : (place d1 k v hv).store.length = d1.store.length := List.length_set _ _ _
      rw [this] at hi
      exact hi
    by_cases his : i = slotIdx hv d1.max_len
    · have hgd : (place d1 k v hv).store.getD i none = some ⟨k, v, d1.added⟩ := by
        show (d1.store.set (slotIdx hv d1.max_len)
          (some ⟨k, v, d1.added⟩)).getD i none = _
        rw [his]
        exact getD_set_self' _ _ _ hs_lt
      rw [hgd] at he
      simp only [Option.toList_some, List.mem_singleton] at he
      subst he
      refine ⟨hv, by simp [hk], ?_⟩
      show slotIdx hv d1.max_len = i
      exact his.symm
    · have hgd : (place d1 k v hv).store.getD i none = d1.store.getD i none := by
        show (d1.store.set (slotIdx hv d1.max_len)
          (some ⟨k, v, d1.added⟩)).getD i none = _
        exact getD_set_other _ _ (fun hc : slotIdx hv d1.max_len = i => his hc.symm)
      rw [hgd] at he
      exact wf_placed hwf i hi' e he

theorem place_spec_empty {d1 : Dict V} (hwf : Wf d1) {k : Key} {hv : Int}
    (v : V) (hk : k.hash? = some hv)
    (hempty : entryAt d1 (slotIdx hv d1.max_len) = none) :
    Wf (place d1 k v hv) ∧
    itemsE (place d1 k v hv) = itemsE d1 ++ [⟨k, v, d1.added⟩] ∧
    (place d1 k v hv).len = d1.len + 1 := by
  have hs_lt : slotIdx hv d1.max_len < d1.store.length := by
    rw [wf_storeLen hwf]; exact slotIdx_lt hv (wf_maxPos hwf)
  obtain ⟨rest, h1, h2⟩ :=
    filterMap_set_perm d1.store (slotIdx hv d1.max_len)
      (some ⟨k, v, d1.added⟩) hs_lt
  have hgd : d1.store.getD (slotIdx hv d1.max_len) none = none := hempty
  rw [hgd] at h1
  simp only [Option.toList_none, List.nil_append] at h1
  simp only [Option.toList_some, List.singleton_append] at h2
  have h1' : (entriesOf d1).Perm rest := h1
  have hperm : (entriesOf (place d1 k v hv)).Perm (⟨k, v, d1.added⟩ :: rest) := h2
  have hsub : ∀ x ∈ rest, x ∈ entriesOf d1 := fun x hx => h1'.symm.mem_iff.mp hx
  have hkeyrest : (rest.map Entry.key).Nodup :=
    ((h1'.map Entry.key).nodup_iff).mp (wf_keyNodup hwf)
  have hknotin : k ∉ rest.map Entry.key := by
    intro hmem
    obtain ⟨e, he, heq⟩ := List.mem_map.mp hmem
    exact entries_key_ne_of_slot_empty hwf hk hempty e (hsub e he) heq
  have hseqrest : (rest.map Entry.seq).Nodup :=
    ((h1'.map Entry.seq).nodup_iff).mp (wf_seqNodup hwf)
  have hlen : (place d1 k v hv).len = d1.len + 1 := by
    simp [place, hempty]
  have hlen' : (place d1 k v hv).len = rest.length + 1 := by
    rw [hlen, wf_lenEq hwf, h1'.length_eq]
  have hwf' := place_wf_aux hwf hk hperm hsub hkeyrest hknotin hseqrest hlen'
  refine ⟨hwf', ?_, hlen⟩
  refine sortSeq_eq_of_perm_sorted (wf_seqNodup hwf') ?_ ?_
  · exact hperm.trans ((h1'.symm.cons _).trans
      (((itemsE_perm_entriesOf d1).symm.cons _).trans
        (List.perm_append_singleton _ _).symm))
  · rw [List.pairwise_append]
    refine ⟨itemsE_sorted_lt hwf, List.pairwise_singleton _ _, ?_⟩
    intro a ha b hb
    rw [List.mem_singleton] at hb
    subst hb
    exact itemsE_seq_lt_added hwf a ha

theorem place_spec_same {d1 : Dict V} (hwf : Wf d1) {k : Key} {hv : Int}
    {e0 : Entry V} (v : V) (hk : k.hash? = some hv)
    (hsome : entryAt d1 (slotIdx hv d1.max_len) = some e0)
    (hke : e0.key = k) :
    Wf (place d1 k v hv) ∧
    itemsE (place d1 k v hv) =
      (itemsE d1).filter (fun x => !decide (x.key = k)) ++ [⟨k, v, d1.added⟩] ∧
    (place d1 k v hv).len = d1.len := by
  have hs_lt : slotIdx hv d1.max_len < d1.store.length := by
    rw [wf_storeLen hwf]; exact slotIdx_lt hv (wf_maxPos hwf)
  obtain ⟨rest, h1, h2⟩ :=
    filterMap_set_perm d1.store (slotIdx hv d1.max_len)
      (some ⟨k, v, d1.added⟩) hs_lt
  have hgd : d1.store.getD (slotIdx hv d1.max_len) none = some e0 := hsome
  rw [hgd] at h1
  simp only [Option.toList_some, List.singleton_append] at h1 h2
  have h1' : (entriesOf d1).Perm (e0 :: rest) := h1
  have hperm : (entriesOf (place d1 k v hv)).Perm (⟨k, v, d1.added⟩ :: rest) := h2
  have hsub : ∀ x ∈ rest, x ∈ entriesOf d1 := fun x hx =>
    h1'.symm.mem_iff.mp (List.mem_cons_of_mem _ hx)
  have hkeys : ((e0 :: rest).map Entry.key).Nodup :=
    ((h1'.map Entry.key).nodup_iff).mp (wf_keyNodup hwf)
  have hkeyrest : (rest.map Entry.key).Nodup := by
    simp only [List.map_cons, List.nodup_cons] at hkeys
    exact hkeys.2
  have hknotin : k ∉ rest.map Entry.key := by
    simp only [List.map_cons, List.nodup_cons] at hkeys
    rw [← hke]
    exact hkeys.1
  have hseqrest : (rest.map Entry.seq).Nodup := by
    have := ((h1'.map Entry.seq).nodup_iff).mp (wf_seqNodup hwf)
    simp only [List.map_cons, List.nodup_cons] at this
    exact this.2
  have hlen : (place d1 k v hv).len = d1.len := by
    simp [place, hsome]
  have hlen' : (place d1 k v hv).len = rest.length + 1 := by
    rw [hlen, wf_lenEq hwf, h1'.length_eq]; simp
  have hwf' := place_wf_aux hwf hk hperm hsub hkeyrest hknotin hseqrest hlen'
  refine ⟨hwf', ?_, hlen⟩
  have hrestkeys : ∀ x ∈ rest, (!decide (x.key = k)) = true := by
    intro x hx
    simp only [Bool.not_eq_true', decide_eq_false_iff_not]
    intro hxk
    exact hknotin (List.mem_map.mpr ⟨x, hx, hxk⟩)
  have hfilter : (itemsE d1).filter (fun x => !decide (x.key = k)) = sortSeq rest := by
    have hcomm := sortSeq_filter (fun x => !decide (x.key = k)) (wf_seqNodup hwf)
    rw [itemsE, ← hcomm]
    refine sortSeq_congr ?_ ?_
    · exact ((List.filter_sublist _).map Entry.seq).nodup (wf_seqNodup hwf)
    · refine (h1'.filter _).trans ?_
      rw [List.filter_cons_of_neg (by simp [hke]),
        List.filter_eq_self.mpr hrestkeys]
  rw [hfilter]
  refine sortSeq_eq_of_perm_sorted (wf_seqNodup hwf') ?_ ?_
  · exact hperm.trans (((sortSeq_perm rest).symm.cons _).trans
      (List.perm_append_singleton _ _).symm)
  · rw [List.pairwise_append]
    refine ⟨sorted_lt_of_le (sortSeq_sorted rest)
        ((((sortSeq_perm rest).map Entry.seq).nodup_iff).mpr hseqrest),
      List.pairwise_singleton _ _, ?_⟩
    intro a ha b hb
    rw [List.mem_singleton] at hb
    subst hb
    exact wf_seqLt hwf a (hsub a ((sortSeq_perm rest).mem_iff.mp ha))

/-- What a successful `__setitem__` guarantees: a well-formed result whose
item sequence is the old one with `k` filtered out and `(k, v)` appended as
the entry with the freshest sequence number (`d.added`); `_added` grew by
one, `_multiplier` is unchanged and the capacity never shrank. -/
def SetSpec (d : Dict V) (k : Key) (v : V) (d' : Dict V) : Prop :=
  Wf d' ∧ d'.added = d.added + 1 ∧ d'.multiplier = d.multiplier ∧
  d.max_len ≤ d'.max_len ∧
  ∃ pre, itemsE d' = pre ++ [⟨k, v, d.added⟩] ∧
    pre.map entryPair = (items d).filter (fun p => !decide (p.1 = k)) ∧
    ∀ e ∈ pre, e.seq < d.added

/-- `setitemF` at a given fuel meets `SetSpec` whenever it succeeds. -/
def SetOK (V : Type) (fuel : Nat) : Prop :=
  ∀ (d : Dict V) (k : Key) (v : V) (d' : Dict V),
    Wf d → setitemF fuel d k v = .ok d' → SetSpec d k v d'

/-- What a successful insertion loop over fresh, distinct keys guarantees
when started from a canonically-numbered state. -/
def InsSpec (d : Dict V) (pairs : List (Key × V)) (d' : Dict V) : Prop :=
  Wf d' ∧ Canon d' ∧ items d' = items d ++ pairs ∧
  d'.added = d.added + pairs.length ∧ d'.multiplier = d.multiplier ∧
  d.max_len ≤ d'.max_len

/-- `insertAllF` at a given fuel meets `InsSpec` whenever it succeeds. -/
def InsOK (V : Type) (fuel : Nat) : Prop :=
  ∀ (d : Dict V) (pairs : List (Key × V)) (d' : Dict V),
    Wf d → Canon d → ((items d ++ pairs).map Prod.fst).Nodup →
    insertAllF fuel d pairs = .ok d' → InsSpec d pairs d'

theorem canon_step {d : Dict V} {k : Key} {v : V} {d1 : Dict V}
    (hwf : Wf d) (hcanon : Canon d)
    (hknotin : ∀ p ∈ items d, p.1 ≠ k)
    (hspec : SetSpec d k v d1) :
    Canon d1 ∧ items d1 = items d ++ [(k, v)] := by
  obtain ⟨hwf1, hadd, hmult, hmax, pre, hitemsE, hprepairs, hpreseq⟩ := hspec
  have hfilter : (items d).filter (fun p => !decide (p.1 = k)) = items d :=
    List.filter_eq_self.mpr (fun p hp => by simp [hknotin p hp])
  rw [hfilter] at hprepairs
  have hlenpre : pre.length = (items d).length := by
    rw [← hprepairs, List.length_map]
  have hn : d.added = (items d).length := by
    rw [hcanon.2, items, List.length_map]
  have hpre_sorted : pre.Pairwise seqLT := by
    have hsorted1 := itemsE_sorted_lt hwf1
    rw [hitemsE] at hsorted1
    exact List.Pairwise.sublist (List.sublist_append_left _ _) hsorted1
  have hpre_bound : ∀ e ∈ pre, e.seq < pre.length := by
    intro e he
    have := hpreseq e he
    rw [hn, ← hlenpre] at this
    exact this
  have hpre2 : pre = seqTag (items d) 0 := by
    rw [eq_seqTag_of_bounded hpre_sorted hpre_bound, hprepairs]
  have hmain : itemsE d1 = seqTag (items d ++ [(k, v)]) 0 := by
    rw [seqTag_append, hitemsE, hpre2]
    congr 1
    simp [seqTag, hn]
  have hitems1 : items d1 = items d ++ [(k, v)] := by
    rw [items, hmain, seqTag_map_pair]
  refine ⟨⟨?_, ?_⟩, hitems1⟩
  · rw [hmain, hitems1]
  · rw [hadd, hitemsE, hn]
    simp [hlenpre]

theorem adopt_wf {d nd : Dict V} (hwfd : Wf d) (hwfnd : Wf nd)
    (haddle : nd.added ≤ d.added) : Wf (adopt d nd) := by
  obtain ⟨s1, s2, s3, s4, s5, s6, s7, s8⟩ := hwfnd
  refine ⟨s1, s2, ?_, s4, ?_, s6, s7, s8⟩
  · show 0 < d.multiplier
    exact wf_multPos hwfd
  · intro e he
    exact Nat.lt_of_lt_of_le (s5 e he) haddle

theorem grow_spec {fuel : Nat} (hinsOK : InsOK V fuel) {d d1 : Dict V}
    (hwf : Wf d) (hok : growD fuel d = .ok d1) :
    Wf d1 ∧ items d1 = items d ∧ d1.added = d.added ∧
    d1.multiplier = d.multiplier ∧ d.max_len * d.multiplier ≤ d1.max_len ∧
    itemsE d1 = seqTag (items d) 0 := by
  rw [growD_eq] at hok
  cases hres : insertAllF fuel (emptyD (d.max_len * d.multiplier) 2) (items d) with
  | ok nd =>
    simp only [hres] at hok
    obtain rfl : adopt d nd = d1 := WriteRes.ok.inj hok
    have hm : 0 < d.max_len * d.multiplier :=
      Nat.mul_pos (wf_maxPos hwf) (wf_multPos hwf)
    have hspec := hinsOK (emptyD _ 2) (items d) nd (emptyD_wf hm (by norm_num))
      (emptyD_canon _ _) (by rw [emptyD_items]; simpa using items_fst_nodup hwf)
      hres
    obtain ⟨hwfnd, hcanonnd, hitemsnd, haddnd, hmultnd, hmaxnd⟩ := hspec
    rw [emptyD_items, List.nil_append] at hitemsnd
    have haddle : nd.added ≤ d.added := by
      rw [haddnd]
      have h1 : (emptyD (d.max_len * d.multiplier) 2 : Dict V).added = 0 := rfl
      rw [h1, Nat.zero_add, items_length]
      exact entries_length_le_added hwf
    refine ⟨adopt_wf hwf hwfnd haddle, ?_, rfl, rfl, ?_, ?_⟩
    · show items nd = items d
      exact hitemsnd
    · show d.max_len * d.multiplier ≤ nd.max_len
      exact hmaxnd
    · show itemsE nd = seqTag (items d) 0
      rw [hcanonnd.1, hitemsnd]
  | typeError =>
    simp only [hres] at hok
    exact WriteRes.noConfusion hok
  | outOfFuel =>
    simp only [hres] at hok
    exact WriteRes.noConfusion hok

theorem insertAll_spec_of {fuel : Nat} (hset : SetOK V fuel) : InsOK V fuel := by
  intro d pairs
  induction pairs generalizing d with
  | nil =>
    intro d' hwf hcanon hnd hins
    rw [insertAllF_nil] at hins
    obtain rfl : d = d' := WriteRes.ok.inj hins
    exact ⟨hwf, hcanon, by simp, by simp, rfl, Nat.le_refl _⟩
  | cons p rest ih =>
    intro d' hwf hcanon hnd hins
    obtain ⟨k, v⟩ := p
    rw [insertAllF_cons] at hins
    cases hstep : setitemF fuel d k v with
    | ok d1 =>
      simp only [hstep] at hins
      have hknotin : ∀ q ∈ items d, q.1 ≠ k := by
        intro q hq hqk
        rw [List.map_append] at hnd
        obtain ⟨-, -, hdisj⟩ := List.nodup_append.mp hnd
        exact hdisj (List.mem_map.mpr ⟨q, hq, hqk⟩) (by simp)
      have hspec := hset d k v d1 hwf hstep
      have hcs := canon_step hwf hcanon hknotin hspec
      have hnd' : ((items d1 ++ rest).map Prod.fst).Nodup := by
        rw [hcs.2, List.append_assoc, List.singleton_append]
        exact hnd
      have ihres := ih d1 d' hspec.1 hcs.1 hnd' hins
      obtain ⟨hwf', hcanon', hitems', hadded', hmult', hmax'⟩ := ihres
      refine ⟨hwf', hcanon', ?_, ?_, ?_, ?_⟩
      · rw [hitems', hcs.2, List.append_assoc, List.singleton_append]
      · rw [hadded', hspec.2.1, List.length_cons]
        omega
      · rw [hmult', hspec.2.2.1]
      · exact Nat.le_trans hspec.2.2.2.1 hmax'
    | typeError =>
      simp only [hstep] at hins
      exact WriteRes.noConfusion hins
    | outOfFuel =>
      simp only [hstep] at hins
      exact WriteRes.noConfusion hins

theorem setitemAux_spec {fuel : Nat} (ih : SetOK V fuel) (hinsOK : InsOK V fuel)
    {d d1 : Dict V} {k : Key} {v : V} {d' : Dict V}
    (hwfd : Wf d) (hwf1 : Wf d1)
    (hitems1 : items d1 = items d) (hadd1 : d1.added = d.added)
    (hmult1 : d1.multiplier = d.multiplier) (hmax1 : d.max_len ≤ d1.max_len)
    (hok : setitemAux fuel (.ok d1) k v = .ok d') :
    SetSpec d k v d' := by
  rw [setitemAux_ok_eq] at hok
  cases hhash : k.hash? with
  | none =>
    simp only [hhash] at hok
    exact WriteRes.noConfusion hok
  | some hv =>
    simp only [hhash] at hok
    cases hslot : entryAt d1 (slotIdx hv d1.max_len) with
    | none =>
      simp only [hslot] at hok
      obtain rfl : place d1 k v hv = d' := WriteRes.ok.inj hok
      obtain ⟨hwf', hitemsE', hlen'⟩ := place_spec_empty hwf1 v hhash hslot
      have hknotin : ∀ p ∈ items d, p.1 ≠ k := by
        intro p hp
        rw [← hitems1] at hp
        obtain ⟨e, he, rfl⟩ := List.mem_map.mp hp
        exact entries_key_ne_of_slot_empty hwf1 hhash hslot e
          ((itemsE_perm_entriesOf d1).mem_iff.mp he)
      refine ⟨hwf', by rw [← hadd1]; rfl, by rw [← hmult1]; rfl,
        Nat.le_trans hmax1 (Nat.le_refl _), itemsE d1, ?_, ?_, ?_⟩
      · rw [hitemsE', hadd1]
      · rw [← hitems1, items,
          List.filter_eq_self.mpr (fun p hp => by
            simp only [Bool.not_eq_true', decide_eq_false_iff_not]
            exact hknotin p (hitems1 ▸ hp))]
      · intro e he
        rw [← hadd1]
        exact itemsE_seq_lt_added hwf1 e he
    | some e0 =>
      simp only [hslot] at hok
      by_cases hek : e0.key = k
      · rw [if_pos hek] at hok
        obtain rfl : place d1 k v hv = d' := WriteRes.ok.inj hok
        obtain ⟨hwf', hitemsE', hlen'⟩ := place_spec_same hwf1 v hhash hslot hek
        refine ⟨hwf', by rw [← hadd1]; rfl, by rw [← hmult1]; rfl,
          Nat.le_trans hmax1 (Nat.le_refl _),
          (itemsE d1).filter (fun x => !decide (x.key = k)), ?_, ?_, ?_⟩
        · rw [hitemsE', hadd1]
        · rw [← hitems1, items, List.filter_map]
          rfl
        · intro e he
          rw [← hadd1]
          exact itemsE_seq_lt_added hwf1 e (List.mem_of_mem_filter he)
      · rw [if_neg hek] at hok
        cases hgres : growD fuel d1 with
        | ok d2 =>
          simp only [hgres] at hok
          obtain ⟨hwf2, hitems2, hadd2, hmult2, hmax2, -⟩ :=
            grow_spec hinsOK hwf1 hgres
          have hspec2 := ih d2 k v d' hwf2 hok
          obtain ⟨hwf', hadd', hmult', hmax', pre, hpre1, hpre2, hpre3⟩ := hspec2
          refine ⟨hwf', by rw [hadd', hadd2, hadd1], by rw [hmult', hmult2, hmult1],
            ?_, pre, ?_, ?_, ?_⟩
          · refine Nat.le_trans hmax1 (Nat.le_trans ?_ hmax')
            refine Nat.le_trans ?_ hmax2
            exact Nat.le_mul_of_pos_right _ (wf_multPos hwf1)
          · rw [hpre1, hadd2, hadd1]
          · rw [hpre2, hitems2, hitems1]
          · intro e he
            have := hpre3 e he
            rw [hadd2, hadd1] at this
            exact this
        | typeError =>
          simp only [hgres] at hok
          exact WriteRes.noConfusion hok
        | outOfFuel =>
          simp only [hgres] at hok
          exact WriteRes.noConfusion hok

theorem setitemAux_typeError {fuel : Nat} (k : Key) (v : V) :
    setitemAux fuel (.typeError : WriteRes V) k v = .typeError := rfl

theorem setitemAux_outOfFuel {fuel : Nat} (k : Key) (v : V) :
    setitemAux fuel (.outOfFuel : WriteRes V) k v = .outOfFuel := rfl

theorem setOK_zero : SetOK V 0 := by
  intro d k v d' hwf h
  rw [setitemF_zero] at h
  exact WriteRes.noConfusion h

theorem setOK_succ {fuel : Nat} (ih : SetOK V fuel) : SetOK V (fuel + 1) := by
  have hinsOK : InsOK V fuel := insertAll_spec_of ih
  intro d k v d' hwf hok
  rw [setitemF_succ] at hok
  by_cases hgrow : d.max_len ≤ d.len
  · rw [if_pos hgrow] at hok
    cases hgres : growD fuel d with
    | ok d1 =>
      rw [hgres] at hok
      obtain ⟨hwf1, hitems1, hadd1, hmult1, hmax1, -⟩ := grow_spec hinsOK hwf hgres
      refine setitemAux_spec ih hinsOK hwf hwf1 hitems1 hadd1 hmult1 ?_ hok
      exact Nat.le_trans (Nat.le_mul_of_pos_right _ (wf_multPos hwf)) hmax1
    | typeError =>
      rw [hgres, setitemAux_typeError k v] at hok
      exact WriteRes.noConfusion hok
    | outOfFuel =>
      rw [hgres, setitemAux_outOfFuel k v] at hok
      exact WriteRes.noConfusion hok
  · rw [if_neg hgrow] at hok
    exact setitemAux_spec ih hinsOK hwf hwf rfl rfl rfl (Nat.le_refl _) hok

theorem setOK_all : ∀ fuel, SetOK V fuel := by
  intro fuel
  induction fuel with
  | zero => exact setOK_zero
  | succ fuel ih => exact setOK_succ ih

/-- Master correctness lemma for `__setitem__`: any successful write meets
`SetSpec`. -/
theorem setitem_spec {fuel : Nat} {d : Dict V} {k : Key} {v : V} {d' : Dict V}
    (hwf : Wf d) (hok : setitemF fuel d k v = .ok d') : SetSpec d k v d' :=
  setOK_all fuel d k v d' hwf hok

/-- Master correctness lemma for the constructor's insertion loop. -/
theorem insertAll_spec {fuel : Nat} {d : Dict V} {pairs : List (Key × V)}
    {d' : Dict V} (hwf : Wf d) (hcanon : Canon d)
    (hnd : ((items d ++ pairs).map Prod.fst).Nodup)
    (hok : insertAllF fuel d pairs = .ok d') : InsSpec d pairs d' :=
  insertAll_spec_of (setOK_all fuel) d pairs d' hwf hcanon hnd hok

theorem map_seq_seqTag (P : List (Key × V)) :
    ∀ a, (seqTag P a).map Entry.seq = List.range' a P.length := by
  induction P with
  | nil => intro a; simp [seqTag]
  | cons p rest ih =>
    intro a
    obtain ⟨k, v⟩ := p
    simp [seqTag, ih (a + 1), List.range'_succ]

theorem wf_len_items {d : Dict V} (hwf : Wf d) : d.len = (items d).length := by
  rw [wf_lenEq hwf, items_length]

theorem setitem_items {d : Dict V} {k : Key} {v : V} {d' : Dict V}
    (hspec : SetSpec d k v d') :
    items d' = (items d).filter (fun p => !decide (p.1 = k)) ++ [(k, v)] := by
  obtain ⟨-, -, -, -, pre, hpre1, hpre2, -⟩ := hspec
  rw [items, hpre1, List.map_append, hpre2]
  rfl

theorem setitem_getitem {fuel : Nat} {d : Dict V} {k : Key} {v : V}
    {d' : Dict V} (hwf : Wf d) (hok : setitemF fuel d k v = .ok d') :
    getitem d' k = .ok v := by
  have hspec := setitem_spec hwf hok
  refine getitem_of_mem_items hspec.1 ?_
  rw [setitem_items hspec]
  exact List.mem_append_right _ (by simp)

theorem filter_length_of_mem_nodup :
    ∀ {l : List (Key × V)}, ((l.map Prod.fst).Nodup) →
    ∀ {k : Key} {v0 : V}, (k, v0) ∈ l →
    (l.filter (fun p => !decide (p.1 = k))).length + 1 = l.length := by
  intro l
  induction l with
  | nil => intro _ k v0 h; exact absurd h (by simp)
  | cons p rest ih =>
    intro hnd k v0 hmem
    simp only [List.map_cons, List.nodup_cons] at hnd
    by_cases hpk : p.1 = k
    · rw [List.filter_cons_of_neg (by simp [hpk])]
      rw [List.filter_eq_self.mpr ?_, List.length_cons]
      intro q hq
      simp only [Bool.not_eq_true', decide_eq_false_iff_not]
      intro hqk
      exact hnd.1 (List.mem_map.mpr ⟨q, hq, by rw [hqk, hpk]⟩)
    · have hmem' : (k, v0) ∈ rest := by
        rcases List.mem_cons.mp hmem with hp | hr
        · exact absurd (congrArg Prod.fst hp.symm) hpk
        · exact hr
      rw [List.filter_cons_of_pos (by simp [hpk]), List.length_cons,
        List.length_cons, ← ih hnd.2 hmem']

theorem delitem_ok_of_contains {d : Dict V} {k : Key}
    (hc : contains d k = true) : ∃ d', delitem d k = .ok d' := by
  rw [contains] at hc
  cases hhash : k.hash? with
  | none => simp [hhash] at hc
  | some hv =>
    simp only [hhash] at hc
    cases hslot : entryAt d (slotIdx hv d.max_len) with
    | none => simp [hslot] at hc
    | some e =>
      simp only [hslot] at hc
      refine ⟨{ d with
                store := d.store.set (slotIdx hv d.max_len) none,
                len := d.len - 1 }, ?_⟩
      simp only [delitem, hhash, hslot, if_pos (of_decide_eq_true hc)]

theorem delitem_spec {d : Dict V} {k : Key} {d' : Dict V} (hwf : Wf d)
    (hok : delitem d k = .ok d') :
    Wf d' ∧ items d' = (items d).filter (fun p => !decide (p.1 = k)) ∧
    d'.len = d.len - 1 ∧ contains d' k = false ∧ d'.added = d.added ∧
    d'.max_len = d.max_len := by
  rw [delitem] at hok
  cases hhash : k.hash? with
  | none => simp only [hhash] at hok; exact Except.noConfusion hok
  | some hv =>
    simp only [hhash] at hok
    cases hslot : entryAt d (slotIdx hv d.max_len) with
    | none => simp only [hslot] at hok; exact Except.noConfusion hok
    | some e0 =>
      simp only [hslot] at hok
      by_cases hek : e0.key = k
      · rw [if_pos hek] at hok
        obtain rfl : _ = d' := Except.ok.inj hok
        have hs_lt : slotIdx hv d.max_len < d.store.length := by
          rw [wf_storeLen hwf]; exact slotIdx_lt hv (wf_maxPos hwf)
        obtain ⟨rest, h1, h2⟩ :=
          filterMap_set_perm d.store (slotIdx hv d.max_len) none hs_lt
        have hgd : d.store.getD (slotIdx hv d.max_len) none = some e0 := hslot
        rw [hgd] at h1
        simp only [Option.toList_some, List.singleton_append,
          Option.toList_none, List.nil_append] at h1 h2
        have h1' : (entriesOf d).Perm (e0 :: rest) := h1
        set dd : Dict V :=
          { d with store := d.store.set (slotIdx hv d.max_len) none,
                   len := d.len - 1 } with hdd
        have h2' : (entriesOf dd).Perm rest := h2
        have hsub : ∀ x ∈ rest, x ∈ entriesOf d := fun x hx =>
          h1'.symm.mem_iff.mp (List.mem_cons_of_mem _ hx)
        have hkeys : ((e0 :: rest).map Entry.key).Nodup :=
          ((h1'.map Entry.key).nodup_iff).mp (wf_keyNodup hwf)
        have hseqs : ((e0 :: rest).map Entry.seq).Nodup :=
          ((h1'.map Entry.seq).nodup_iff).mp (wf_seqNodup hwf)
        have hknotin : k ∉ rest.map Entry.key := by
          simp only [List.map_cons, List.nodup_cons] at hkeys
          rw [← hek]
          exact hkeys.1
        have hwf' : Wf dd := by
          refine ⟨?_, ?_, ?_, ?_, ?_, ?_, ?_, ?_⟩
          · show (d.store.set _ _).length = d.max_len
            rw [List.length_set]; exact wf_storeLen hwf
          · show 0 < d.max_len
            exact wf_maxPos hwf
          · show 0 < d.multiplier
            exact wf_multPos hwf
          · show d.len - 1 = (entriesOf dd).length
            rw [h2'.length_eq, wf_lenEq hwf, h1'.length_eq, List.length_cons]
            omega
          · intro e he
            exact wf_seqLt hwf e (hsub e (h2'.mem_iff.mp he))
          · refine ((h2'.map Entry.seq).nodup_iff).mpr ?_
            simp only [List.map_cons, List.nodup_cons] at hseqs
            exact hseqs.2
          · refine ((h2'.map Entry.key).nodup_iff).mpr ?_
            simp only [List.map_cons, List.nodup_cons] at hkeys
            exact hkeys.2
          · intro i hi e he
            have hi' : i < d.store.length := by
              have : dd.store.length = d.store.length := List.length_set _ _ _
              rw [this] at hi
              exact hi
            by_cases his : i = slotIdx hv d.max_len
            · have hgd2 : dd.store.getD i none = none := by
                show (d.store.set (slotIdx hv d.max_len) none).getD i none = none
                rw [his]
                exact getD_set_self' _ _ _ hs_lt
              rw [hgd2] at he
              simp at he
            · have hgd2 : dd.store.getD i none = d.store.getD i none := by
                show (d.store.set (slotIdx hv d.max_len) none).getD i none = _
                exact getD_set_other _ _ (fun hc : slotIdx hv d.max_len = i => his hc.symm)
              rw [hgd2] at he
              exact wf_placed hwf i hi' e he
        have hrestkeys : ∀ x ∈ rest, (!decide (x.key = k)) = true := by
          intro x hx
          simp only [Bool.not_eq_true', decide_eq_false_iff_not]
          intro hxk
          exact hknotin (List.mem_map.mpr ⟨x, hx, hxk⟩)
        have hitemsDD : itemsE dd = (itemsE d).filter (fun x => !decide (x.key = k)) := by
          have hcomm := sortSeq_filter (fun x => !decide (x.key = k)) (wf_seqNodup hwf)
          rw [itemsE, itemsE, ← hcomm]
          refine (sortSeq_congr ?_ ?_).symm
          · exact ((List.filter_sublist _).map Entry.seq).nodup (wf_seqNodup hwf)
          · refine (h1'.filter _).trans ?_
            rw [List.filter_cons_of_neg (by simp [hek]),
              List.filter_eq_self.mpr hrestkeys]
            exact h2'.symm
        refine ⟨hwf', ?_, rfl, ?_, rfl, rfl⟩
        · rw [items, items, hitemsDD, List.filter_map]
          rfl
        · show contains dd k = false
          have hgd2 : entryAt dd (slotIdx hv dd.max_len) = none := by
            show (d.store.set (slotIdx hv d.max_len) none).getD
              (slotIdx hv d.max_len) none = none
            exact getD_set_self' _ _ _ hs_lt
          simp [contains, hhash, hgd2]
      · rw [if_neg hek] at hok
        exact Except.noConfusion hok

theorem setitem_strict_growth {fuel : Nat} {d : Dict V} {k : Key} {hv : Int}
    {v : V} {d' : Dict V} (hwf : Wf d) (hmult : 2 ≤ d.multiplier)
    (hk : k.hash? = some hv)
    (hocc : ∃ e, entryAt d (slotIdx hv d.max_len) = some e ∧ e.key ≠ k)
    (hok : setitemF fuel d k v = .ok d') :
    d.max_len < d'.max_len := by
  cases fuel with
  | zero =>
    rw [setitemF_zero] at hok
    exact WriteRes.noConfusion hok
  | succ fuel =>
    have hinsOK : InsOK V fuel := insertAll_spec_of (setOK_all fuel)
    have hmul2 : d.max_len < d.max_len * d.multiplier := by
      have := wf_maxPos hwf
      calc d.max_len < d.max_len * 2 := by omega
        _ ≤ d.max_len * d.multiplier := Nat.mul_le_mul_left _ hmult
    rw [setitemF_succ] at hok
    by_cases hgrow : d.max_len ≤ d.len
    · rw [if_pos hgrow] at hok
      cases hgres : growD fuel d with
      | ok d1 =>
        rw [hgres] at hok
        obtain ⟨hwf1, hitems1, hadd1, hmult1, hmax1, -⟩ :=
          grow_spec hinsOK hwf hgres
        have hspec := setitemAux_spec (setOK_all fuel) hinsOK hwf1 hwf1
          rfl rfl rfl (Nat.le_refl _) hok
        exact Nat.lt_of_lt_of_le hmul2
          (Nat.le_trans hmax1 hspec.2.2.2.1)
      | typeError =>
        rw [hgres, setitemAux_typeError k v] at hok
        exact WriteRes.noConfusion hok
      | outOfFuel =>
        rw [hgres, setitemAux_outOfFuel k v] at hok
        exact WriteRes.noConfusion hok
    · rw [if_neg hgrow] at hok
      rw [setitemAux_ok_eq] at hok
      obtain ⟨e, hslot, hek⟩ := hocc
      simp only [hk, hslot, if_neg hek] at hok
      cases hgres : growD fuel d with
      | ok d2 =>
        simp only [hgres] at hok
        obtain ⟨hwf2, hitems2, hadd2, hmult2, hmax2, -⟩ :=
          grow_spec hinsOK hwf hgres
        have hspec := setitem_spec hwf2 hok
        exact Nat.lt_of_lt_of_le hmul2 (Nat.le_trans hmax2 hspec.2.2.2.1)
      | typeError =>
        simp only [hgres] at hok
        exact WriteRes.noConfusion hok
      | outOfFuel =>
        simp only [hgres] at hok
        exact WriteRes.noConfusion hok

/-- Modelled from the spec: the `DefaultDict` class of §4.2 is not present
under `src/` (the source file only defines `Dictionary`), so it is modelled
from the specification's words: a `Dictionary` composed with a mandatory
zero-argument `factory`, where a read of an absent key performs
`Write(key, factory())` and returns the newly written value.  The factory is
modelled as a function of its invocation count `calls`, so "the factory is
not invoked again" is observable as `calls` staying unchanged; it is a field
of the structure, carried unchanged through every internal rebuild/grow of
the underlying `Dictionary`. -/
structure DefaultDict (V : Type) where
  dict : Dict V
  factory : Nat → V
  calls : Nat

/-- Modelled from the spec: `DefaultDict`'s read path — the `Dictionary`
read, with the not-found failure intercepted by a write of `factory()`
followed by returning the new value (`none` models a failing write:
unhashable key or exhausted fuel). -/
def ddGet (fuel : Nat) (dd : DefaultDict V) (k : Key) :
    Option (V × DefaultDict V) :=
  match getitem dd.dict k with
  | .ok v => some (v, dd)
  | .error _ =>
    match setitemF fuel dd.dict k (dd.factory dd.calls) with
    | .ok d' => some (dd.factory dd.calls, ⟨d', dd.factory, dd.calls + 1⟩)
    | _ => none

/-- C1: for every hashable key and value, immediately after a write
`container[key] = value` completes, a direct indexed read `container[key]`
returns `value`, after any prior sequence of writes (any well-formed
state). -/
theorem C1_roundtrip {fuel : Nat} {d : Dict V} {k : Key} {v : V}
    {d' : Dict V} (hwf : Wf d) (hok : setitemF fuel d k v = .ok d') :
    getitem d' k = .ok v :=
  setitem_getitem hwf hok

/-- C2 (amended): a direct indexed read of an unhashable key raises the
not-found failure (`KeyError`) — the hash failure is converted, exactly as
for delete — while only the indexed write propagates the unhashable-key
failure (`TypeError`); `get`, `contains` and membership treat the key as
not found. -/
theorem C2_unhashable_corrected {d : Dict V} {k : Key} (hk : k.hash? = none)
    (v df : V) (fuel : Nat) :
    getitem d k = .error .keyError ∧ delitem d k = .error .keyError ∧
    contains d k = false ∧ getOr d k df = df ∧
    (d.len < d.max_len → setitemF (fuel + 1) d k v = .typeError) := by
  refine ⟨?_, ?_, ?_, ?_, ?_⟩
  · simp [getitem, hk]
  · simp [delitem, hk]
  · simp [contains, hk]
  · simp [getOr, getitem, hk]
  · intro hlt
    rw [setitemF_succ, if_neg (by omega)]
    simp [setitemAux_ok_eq, hk]

/-- C3 (amended): a resize (growth rebuild) that completes loses no
entries — the new slot array holds exactly the prior occupied entries'
key/value pairs in their original order — but the `insertion_sequence`
values are reassigned consecutively from `0` in that order rather than
preserved. -/
theorem C3_resize_corrected {fuel : Nat} {d d1 : Dict V} (hwf : Wf d)
    (hok : growD fuel d = .ok d1) :
    Wf d1 ∧ items d1 = items d ∧
    (itemsE d1).map Entry.seq = List.range (items d).length ∧
    d.max_len * d.multiplier ≤ d1.max_len := by
  have hinsOK : InsOK V fuel := insertAll_spec_of (setOK_all fuel)
  obtain ⟨hwf1, hitems, hadd, hmult, hmax, hseq⟩ := grow_spec hinsOK hwf hok
  refine ⟨hwf1, hitems, ?_, hmax⟩
  rw [hseq, map_seq_seqTag, List.range_eq_range']

/-- C4: writing two distinct keys whose slot indices collide at the current
capacity leaves the capacity strictly greater than before, with both keys
independently retrievable afterward. -/
theorem C4_collision_growth {f1 f2 : Nat} {d dA dB : Dict V} {k1 k2 : Key}
    {h1v h2v : Int} {v1 v2 : V}
    (hwf : Wf d) (hmult : 2 ≤ d.multiplier) (hne : k1 ≠ k2)
    (hk1 : k1.hash? = some h1v) (hk2 : k2.hash? = some h2v)
    (hcol : slotIdx h1v d.max_len = slotIdx h2v d.max_len)
    (w1 : setitemF f1 d k1 v1 = .ok dA)
    (w2 : setitemF f2 dA k2 v2 = .ok dB) :
    d.max_len < dB.max_len ∧ getitem dB k1 = .ok v1 ∧ getitem dB k2 = .ok v2 := by
  have specA := setitem_spec hwf w1
  have hwfA := specA.1
  have specB := setitem_spec hwfA w2
  have hmemA : (k1, v1) ∈ items dA := by
    rw [setitem_items specA]
    exact List.mem_append_right _ (by simp)
  have hmemB1 : (k1, v1) ∈ items dB := by
    rw [setitem_items specB]
    refine List.mem_append_left _ ?_
    rw [List.mem_filter]
    exact ⟨hmemA, by simp [hne]⟩
  have hget2 : getitem dB k2 = .ok v2 := setitem_getitem hwfA w2
  have hget1 : getitem dB k1 = .ok v1 := getitem_of_mem_items specB.1 hmemB1
  refine ⟨?_, hget1, hget2⟩
  rcases Nat.lt_or_ge d.max_len dA.max_len with hlt | hge
  · exact Nat.lt_of_lt_of_le hlt specB.2.2.2.1
  · have heq : dA.max_len = d.max_len := Nat.le_antisymm hge specA.2.2.2.1
    obtain ⟨e, he, hpair⟩ := List.mem_map.mp hmemA
    have hek1 : e.key = k1 := congrArg Prod.fst hpair
    obtain ⟨hv', hhash, hslot⟩ := placed_of_mem hwfA
      ((itemsE_perm_entriesOf dA).mem_iff.mp he)
    rw [hek1, hk1] at hhash
    obtain rfl : h1v = hv' := Option.some.inj hhash
    have hss : slotIdx h2v dA.max_len = slotIdx h1v dA.max_len := by
      rw [heq, ← hcol]
    have hslot2 : entryAt dA (slotIdx h2v dA.max_len) = some e := by
      rw [hss]
      exact hslot
    have hmultA : 2 ≤ dA.multiplier := by
      rw [specA.2.2.1]
      exact hmult
    have hstrict := setitem_strict_growth hwfA hmultA hk2
      ⟨e, hslot2, by rw [hek1]; exact hne⟩ w2
    rw [heq] at hstrict
    exact hstrict

/-- C5: writing a key that is already present overwrites its value, assigns
a fresh insertion-sequence number (`d.added`, larger than every other
surviving entry's), moves the key to the end of the iteration order, and
leaves the element count unchanged. -/
theorem C5_overwrite {fuel : Nat} {d : Dict V} {k : Key} {v v0 : V}
    {d' : Dict V} (hwf : Wf d) (hmem : (k, v0) ∈ items d)
    (hok : setitemF fuel d k v = .ok d') :
    getitem d' k = .ok v ∧ d'.len = d.len ∧
    items d' = (items d).filter (fun p => !decide (p.1 = k)) ++ [(k, v)] ∧
    (itemsE d').getLast? = some ⟨k, v, d.added⟩ ∧
    (∀ e ∈ itemsE d', e.key ≠ k → e.seq < d.added) := by
  have hspec := setitem_spec hwf hok
  have hitems := setitem_items hspec
  obtain ⟨hwf', hadd, hmult, hmax, pre, hpre1, hpre2, hpre3⟩ := hspec
  refine ⟨setitem_getitem hwf hok, ?_, hitems, ?_, ?_⟩
  · rw [wf_len_items hwf', hitems, List.length_append, wf_len_items hwf]
    have := filter_length_of_mem_nodup (items_fst_nodup hwf) hmem
    simp only [List.length_singleton]
    omega
  · rw [hpre1]
    exact List.getLast?_concat _
  · intro e he hek
    rw [hpre1] at he
    rcases List.mem_append.mp he with hp | hs
    · exact hpre3 e hp
    · rw [List.mem_singleton] at hs
      subst hs
      exact absurd rfl hek

/-- C6: two `Dictionary` instances compare equal exactly when their
order-preserving item sequences are equal element-by-element; consequently
two containers built from the same key/value pairs (a permutation) compare
equal exactly when the pairs were inserted in the same order. -/
theorem C6_equality_order [DecidableEq V] {fuel1 fuel2 : Nat}
    {pairs1 pairs2 : List (Key × V)} {dA dB : Dict V}
    (hnd1 : (pairs1.map Prod.fst).Nodup) (hnd2 : (pairs2.map Prod.fst).Nodup)
    (hperm : pairs1.Perm pairs2)
    (hA : insertAllF fuel1 (emptyD 4 2) pairs1 = .ok dA)
    (hB : insertAllF fuel2 (emptyD 4 2) pairs2 = .ok dB) :
    (∀ x y : Dict V, eqDict x y = true ↔ items x = items y) ∧
    (eqDict dA dB = true ↔ pairs1 = pairs2) := by
  have hwfe : Wf (emptyD 4 2 : Dict V) := emptyD_wf (by norm_num) (by norm_num)
  have hiA := insertAll_spec hwfe (emptyD_canon _ _)
    (by rw [emptyD_items]; simpa using hnd1) hA
  have hiB := insertAll_spec hwfe (emptyD_canon _ _)
    (by rw [emptyD_items]; simpa using hnd2) hB
  have hitA : items dA = pairs1 := by
    have := hiA.2.2.1
    rwa [emptyD_items, List.nil_append] at this
  have hitB : items dB = pairs2 := by
    have := hiB.2.2.1
    rwa [emptyD_items, List.nil_append] at this
  refine ⟨fun x y => by simp [eqDict], ?_⟩
  simp [eqDict, hitA, hitB]

/-- C7: `pop(key)` with the key present returns its value and removes the
key; with the key absent and a caller-supplied default — any value at all,
including "falsy" ones, since the sentinel comparison is by identity — it
returns exactly that default; with the key absent and no default it fails
with the not-found error. -/
theorem C7_pop {d : Dict V} {k : Key} (hwf : Wf d) :
    (∀ v df?, (k, v) ∈ items d →
      ∃ d', popD d k df? = .ok (v, d') ∧ Wf d' ∧
        items d' = (items d).filter (fun p => !decide (p.1 = k)) ∧
        d'.len = d.len - 1 ∧ contains d' k = false) ∧
    (contains d k = false → ∀ v0, popD d k (some v0) = .ok (v0, d)) ∧
    (contains d k = false → popD d k none = .error .keyError) := by
  refine ⟨?_, ?_, ?_⟩
  · intro v df? hmem
    have hc : contains d k = true := (contains_iff_mem_items hwf k).mpr ⟨v, hmem⟩
    have hget := getitem_of_mem_items hwf hmem
    obtain ⟨d', hdel⟩ := delitem_ok_of_contains hc
    obtain ⟨hwf', hitems', hlen', hcon', -, -⟩ := delitem_spec hwf hdel
    refine ⟨d', ?_, hwf', hitems', hlen', hcon'⟩
    simp [popD, hc, hget, hdel]
  · intro hc v0
    simp [popD, hc]
  · intro hc
    simp [popD, hc]

/-- C8: the containment query is a total boolean: it is `true` exactly when
an entry with the queried key is present, and `false` — never a propagated
error — when the key is absent or unhashable. -/
theorem C8_contains_boolean {d : Dict V} (hwf : Wf d) (k : Key) :
    (contains d k = true ↔ ∃ v, (k, v) ∈ items d) ∧
    (k.hash? = none → contains d k = false) := by
  refine ⟨contains_iff_mem_items hwf k, ?_⟩
  intro hk
  simp [contains, hk]

/-- C9 (spec-modelled): `DefaultDict` intercepts a read of an absent key,
writes `factory()` for that key and returns the newly written value; a
subsequent read of the same key returns that same value without invoking
the factory again (`calls` unchanged, state unchanged), and the factory is
preserved across the write, including every internal grow/rebuild the write
performs. -/
theorem C9_defaultdict {fuel fuel2 : Nat} {dd : DefaultDict V} {k : Key}
    {v : V} {dd' : DefaultDict V}
    (hwf : Wf dd.dict) (habsent : contains dd.dict k = false)
    (hok : ddGet fuel dd k = some (v, dd')) :
    v = dd.factory dd.calls ∧ dd'.factory = dd.factory ∧
    dd'.calls = dd.calls + 1 ∧ Wf dd'.dict ∧
    ddGet fuel2 dd' k = some (v, dd') := by
  have hget : getitem dd.dict k = .error .keyError :=
    getitem_err_of_not_contains habsent
  rw [ddGet, hget] at hok
  cases hset : setitemF fuel dd.dict k (dd.factory dd.calls) with
  | ok dnew =>
    simp only [hset, Option.some.injEq, Prod.mk.injEq] at hok
    obtain ⟨rfl, rfl⟩ := hok
    have hspec := setitem_spec hwf hset
    refine ⟨rfl, rfl, rfl, hspec.1, ?_⟩
    rw [ddGet]
    have hget2 : getitem dnew k = .ok (dd.factory dd.calls) :=
      setitem_getitem hwf hset
    rw [show (⟨dnew, dd.factory, dd.calls + 1⟩ : DefaultDict V).dict = dnew
      from rfl, hget2]
  | typeError =>
    simp only [hset] at hok
    exact Option.noConfusion hok
  | outOfFuel =>
    simp only [hset] at hok
    exact Option.noConfusion hok

/-- C10: `pop` with an unhashable key and a caller-supplied default returns
that default without raising (the containment check swallows the hash
failure); with an unhashable key and no default it fails with the not-found
error, not the unhashable-key error. -/
theorem C10_pop_unhashable {d : Dict V} {k : Key} (hk : k.hash? = none)
    (v0 : V) :
    popD d k (some v0) = .ok (v0, d) ∧ popD d k none = .error .keyError := by
  have hc : contains d k = false := by simp [contains, hk]
  exact ⟨by simp [popD, hc], by simp [popD, hc]⟩

/-- A key with hash `0`. -/
def kA : Key := ⟨0, some 0⟩

/-- A key with hash `1`. -/
def kB : Key := ⟨1, some 1⟩

/-- A key with hash `4`: collides with `kA` at capacity `4`, not at `8`. -/
def kC : Key := ⟨2, some 4⟩

/-- An unhashable key. -/
def kU : Key := ⟨9, none⟩

/-- A small dictionary with two entries, built by a prior write sequence. -/
def dW : Dict Nat := okD (insertAllF 9 (emptyD 4 2) [(kA, 1), (kB, 2)])

/-- A dictionary whose stored sequence numbers are `1` and `2` (the write of
`kA` was overwritten, leaving a gap at `0`). -/
def d3 : Dict Nat := okD (insertAllF 9 (emptyD 4 2) [(kA, 10), (kB, 11), (kA, 20)])

/-- First write of the collision pair `kA`/`kC`. -/
def dA4 : Dict Nat := okD (setitemF 9 (emptyD 4 2) kA 1)

/-- Second write of the collision pair `kA`/`kC`. -/
def dB4 : Dict Nat := okD (setitemF 9 dA4 kC 2)

/-- Insertion order one for the equality test. -/
def p6a : List (Key × Nat) := [(kA, 1), (kB, 2)]

/-- Insertion order two: the same pairs, reversed. -/
def p6b : List (Key × Nat) := [(kB, 2), (kA, 1)]

/-- Dictionary built from `p6a`. -/
def dA6 : Dict Nat := okD (insertAllF 9 (emptyD 4 2) p6a)

/-- Dictionary built from `p6b`. -/
def dB6 : Dict Nat := okD (insertAllF 9 (emptyD 4 2) p6b)

/-- An empty `DefaultDict` whose factory records its invocation count. -/
def ddW : DefaultDict Nat := ⟨emptyD 4 2, fun n => n + 100, 0⟩

/-- The `DefaultDict` state after the first read of `kA`. -/
def ddW1 : DefaultDict Nat := ((ddGet 5 ddW kA).getD (0, ddW)).2

/-- C1 witness: a concrete write then read round-trip after a prior write
sequence (the write of `kC` collides with `kA` and forces a grow). -/
theorem C1_roundtrip_witness :
    getitem (okD (setitemF 9 dW kC 7)) kC = Except.ok 7 :=
  @C1_roundtrip Nat 9 dW kC 7 (okD (setitemF 9 dW kC 7)) (by decide) (by decide)

/-- C2 counterexample: a direct indexed read of an unhashable key raises
`KeyError` (the not-found failure), not the unhashable-key `TypeError` the
claim asserts. -/
theorem C2_counterexample :
    getitem (emptyD 4 2 : Dict Nat) kU = Except.error PyErr.keyError ∧
    getitem (emptyD 4 2 : Dict Nat) kU ≠ Except.error PyErr.typeError := by
  refine ⟨rfl, fun h => ?_⟩
  rw [show getitem (emptyD 4 2 : Dict Nat) kU = Except.error PyErr.keyError
    from rfl] at h
  exact PyErr.noConfusion (Except.error.inj h)

/-- C2 witness for the amended claim, at a concrete unhashable key. -/
theorem C2_unhashable_corrected_witness :
    getitem (emptyD 4 2 : Dict Nat) kU = .error .keyError ∧
    delitem (emptyD 4 2 : Dict Nat) kU = .error .keyError ∧
    contains (emptyD 4 2 : Dict Nat) kU = false ∧
    getOr (emptyD 4 2 : Dict Nat) kU 42 = 42 ∧
    ((emptyD 4 2 : Dict Nat).len < (emptyD 4 2 : Dict Nat).max_len →
      setitemF (0 + 1) (emptyD 4 2 : Dict Nat) kU 7 = .typeError) :=
  C2_unhashable_corrected rfl 7 42 0

/-- C3 counterexample: a rebuild of `d3` (stored sequence numbers `1` and
`2`) keeps the pairs and their order but reassigns the sequence numbers to
`0` and `1`, refuting "each surviving entry keeps its original
`insertion_sequence` value". -/
theorem C3_counterexample :
    isOk (insertAllF 9 (emptyD 4 2 : Dict Nat) [(kA, 10), (kB, 11), (kA, 20)]) = true ∧
    (itemsE d3).map Entry.seq = [1, 2] ∧
    isOk (growD 9 d3) = true ∧
    items (okD (growD 9 d3)) = items d3 ∧
    (itemsE (okD (growD 9 d3))).map Entry.seq = [0, 1] := by
  decide

/-- C3 witness for the amended claim: the concrete rebuild of `d3`. -/
theorem C3_resize_corrected_witness :
    Wf (okD (growD 9 d3)) ∧ items (okD (growD 9 d3)) = items d3 ∧
    (itemsE (okD (growD 9 d3))).map Entry.seq = List.range (items d3).length ∧
    d3.max_len * d3.multiplier ≤ (okD (growD 9 d3)).max_len :=
  @C3_resize_corrected Nat 9 d3 (okD (growD 9 d3)) (by decide) (by decide)

/-- C4 witness: `kA` and `kC` collide at capacity 4; writing both doubles
the capacity and leaves both retrievable. -/
theorem C4_collision_growth_witness :
    (emptyD 4 2 : Dict Nat).max_len < dB4.max_len ∧
    getitem dB4 kA = .ok 1 ∧ getitem dB4 kC = .ok 2 :=
  @C4_collision_growth Nat 9 9 (emptyD 4 2) dA4 dB4 kA kC 0 4 1 2 (by decide)
    (by decide) (by decide) (by decide) (by decide) (by decide) (by decide)
    (by decide)

/-- C5 witness: overwriting `kA` in a two-entry dictionary. -/
theorem C5_overwrite_witness :
    getitem (okD (setitemF 9 dW kA 99)) kA = .ok 99 ∧
    (okD (setitemF 9 dW kA 99)).len = dW.len ∧
    items (okD (setitemF 9 dW kA 99)) =
      (items dW).filter (fun p => !decide (p.1 = kA)) ++ [(kA, 99)] ∧
    (itemsE (okD (setitemF 9 dW kA 99))).getLast? = some ⟨kA, 99, dW.added⟩ ∧
    (∀ e ∈ itemsE (okD (setitemF 9 dW kA 99)), e.key ≠ kA → e.seq < dW.added) :=
  @C5_overwrite Nat 9 dW kA 99 1 (okD (setitemF 9 dW kA 99)) (by decide)
    (by decide) (by decide)

/-- C6 witness: the same two pairs inserted in the two possible orders. -/
theorem C6_equality_order_witness :
    (∀ x y : Dict Nat, eqDict x y = true ↔ items x = items y) ∧
    (eqDict dA6 dB6 = true ↔ p6a = p6b) :=
  @C6_equality_order Nat inferInstance 9 9 p6a p6b dA6 dB6 (by decide)
    (by decide) (by decide) (by decide) (by decide)

/-- C7 witness: `pop` on the concrete dictionary `dW`. -/
theorem C7_pop_witness :
    (∀ v df?, (kA, v) ∈ items dW →
      ∃ d', popD dW kA df? = .ok (v, d') ∧ Wf d' ∧
        items d' = (items dW).filter (fun p => !decide (p.1 = kA)) ∧
        d'.len = dW.len - 1 ∧ contains d' kA = false) ∧
    (contains dW kA = false → ∀ v0, popD dW kA (some v0) = .ok (v0, dW)) ∧
    (contains dW kA = false → popD dW kA none = .error .keyError) :=
  C7_pop (by decide)

/-- C8 witness: containment on the concrete dictionary `dW`. -/
theorem C8_contains_boolean_witness :
    (contains dW kA = true ↔ ∃ v, (kA, v) ∈ items dW) ∧
    (kA.hash? = none → contains dW kA = false) :=
  C8_contains_boolean (by decide) kA

/-- C9 witness: the concrete `DefaultDict` materializes `100` for `kA` on
first read and returns the same value, without another factory call, on the
second. -/
theorem C9_defaultdict_witness :
    (100 : Nat) = ddW.factory ddW.calls ∧
    ddW1.factory = ddW.factory ∧
    ddW1.calls = ddW.calls + 1 ∧ Wf ddW1.dict ∧
    ddGet 7 ddW1 kA = some (100, ddW1) :=
  @C9_defaultdict Nat 5 7 ddW kA 100 ddW1 (by decide) (by decide) rfl

/-- C10 witness: `pop` of a concrete unhashable key. -/
theorem C10_pop_unhashable_witness :
    popD dW kU (some 0) = Except.ok (0, dW) ∧
    popD dW kU none = Except.error PyErr.keyError :=
  C10_pop_unhashable rfl 0

end Dicts
